import Mathlib

/-!
Verification development for the ecocal repository (ForexFactory economic
calendar scraper).  The definitions below are a shallow embedding of the
JavaScript sources under `scripts/` (scrape.js in its two revisions,
pull-ff-xml.js, build-ics.js).  Machine arithmetic is modelled with `Nat`
and `Int`; strings are Lean `String`s; IANA time zones are modelled as
fixed UTC offsets in minutes (the default configured zone, Asia/Bangkok,
is the fixed offset +420; offsets satisfy `-1440 < off < 1440`).
Fallible steps return `Option`/`Except`.
-/

namespace Ecocal

/-! ### Character and string utilities (JS primitives used by the scripts) -/

/-- ASCII-lowercase a character, as JS `toLowerCase` acts on the ASCII
letters appearing in the scraped texts. -/
def lowChar (c : Char) : Char :=
  if 65 ≤ c.toNat ∧ c.toNat ≤ 90 then Char.ofNat (c.toNat + 32) else c

/-- ASCII-uppercase a character, as JS `toUpperCase` acts on the ASCII
letters appearing in the scraped texts. -/
def upChar (c : Char) : Char :=
  if 97 ≤ c.toNat ∧ c.toNat ≤ 122 then Char.ofNat (c.toNat - 32) else c

/-- JS `String.prototype.toLowerCase` (ASCII fragment). -/
def jsToLower (s : String) : String := String.mk (s.data.map lowChar)

/-- JS `String.prototype.toUpperCase` (ASCII fragment). -/
def jsToUpper (s : String) : String := String.mk (s.data.map upChar)

/-- Does the character list start with the given pattern? -/
def startsWithL : List Char → List Char → Bool
  | [], _ => true
  | _ :: _, [] => false
  | p :: ps, c :: cs => p == c && startsWithL ps cs

/-- Substring occurrence test on character lists; `hasSub pat s` models
JS `s.includes(pat)`. -/
def hasSub (pat : List Char) : List Char → Bool
  | [] => startsWithL pat []
  | c :: cs => startsWithL pat (c :: cs) || hasSub pat cs

/-- JS `s.includes(pat)`. -/
def jsIncludes (s pat : String) : Bool := hasSub pat.data s.data

/-- JS whitespace test (the characters relevant to the scraped texts). -/
def isWs (c : Char) : Bool := c == ' ' || c == '\t' || c == '\n' || c == '\r'

/-- JS `String.prototype.trim`. -/
def jsTrim (s : String) : String :=
  String.mk (((s.data.dropWhile isWs).reverse.dropWhile isWs).reverse)

/-- JS `s.slice(0, n)` on the strings handled here. -/
def jsSlice0 (n : Nat) (s : String) : String := String.mk (s.data.take n)

/-- Split a character list at each comma (model of JS `split(',')`). -/
def splitCommaL : List Char → List String
  | [] => [""]
  | c :: cs =>
    if c == ',' then "" :: splitCommaL cs
    else
      match splitCommaL cs with
      | [] => [String.mk [c]]
      | t :: ts => String.mk (c :: t.data) :: ts

/-- The allow-list construction used for `FF_CURRENCIES` and `FF_IMPACTS`:
`env.split(',').map(s => s.trim().toUpperCase()).filter(Boolean)`
(scrape.js lines 179-186, pull-ff-xml.js). -/
def parseAllowList (env : String) : List String :=
  ((splitCommaL env.data).map (fun s => jsToUpper (jsTrim s))).filter (fun s => s ≠ "")

/-! ### Impact classification (scrape.js lines 192-198) -/

/-- `impactNormalize` from scrape.js: lowercase the text, then test the
substrings "high", "medium"/"med", "low" in that order. -/
def impactNormalize (s : String) : String :=
  let t := jsToLower s
  if jsIncludes t "high" then "HIGH"
  else if jsIncludes t "medium" || jsIncludes t "med" then "MEDIUM"
  else if jsIncludes t "low" then "LOW"
  else "UNKNOWN"

/-- The impact filter guard of the normalization loop (scrape.js line 400):
`impact !== 'UNKNOWN' && !IMPACTS.includes(impact)` discards the row. -/
def impactRejected (impacts : List String) (impact : String) : Bool :=
  impact ≠ "UNKNOWN" && !(impacts.contains impact)

/-! ### Calendar dates and zone conversion

`Date` models a proleptic-Gregorian calendar date as carried by the JS
`Date` values built with `Date.UTC(year, month-1, day)`. -/

structure Date where
  year : Nat
  month : Nat
  day : Nat
deriving DecidableEq, Repr

/-- Gregorian leap-year rule (as implemented by the JS `Date` object). -/
def isLeap (y : Nat) : Bool := y % 4 == 0 && (y % 100 != 0 || y % 400 == 0)

/-- Number of days in a month of a given year. -/
def daysInMonth (y m : Nat) : Nat :=
  if m == 2 then (if isLeap y then 29 else 28)
  else if m == 4 || m == 6 || m == 9 || m == 11 then 30
  else 31

/-- The calendar day after `d`. -/
def nextDay (d : Date) : Date :=
  if d.day < daysInMonth d.year d.month then ⟨d.year, d.month, d.day + 1⟩
  else if d.month < 12 then ⟨d.year, d.month + 1, 1⟩
  else ⟨d.year + 1, 1, 1⟩

/-- The calendar day before `d`. -/
def prevDay (d : Date) : Date :=
  if 1 < d.day then ⟨d.year, d.month, d.day - 1⟩
  else if 1 < d.month then ⟨d.year, d.month - 1, daysInMonth d.year (d.month - 1)⟩
  else ⟨d.year - 1, 12, 31⟩

/-- A wall-clock point: a calendar date together with a minute of day
(`0 ≤ minute < 1440` for points produced by the pipeline). -/
structure Wall where
  date : Date
  minute : Nat
deriving DecidableEq, Repr

/-- Convert a UTC wall-clock point to the wall clock of a fixed-offset zone
(`off` minutes east of UTC, `-1440 < off < 1440`).  This models luxon
`DateTime.fromISO(dateISO, \x7b zone: 'UTC' \x7d).setZone(TZ)` in
scrape.js line 404: the absolute instant is kept and re-expressed in the
configured zone, which can move the calendar date by one day. -/
def setZoneFromUTC (off : Int) (d : Date) (minUTC : Nat) : Wall :=
  let t : Int := (minUTC : Int) + off
  if t < 0 then ⟨prevDay d, (t + 1440).toNat⟩
  else if 1440 ≤ t then ⟨nextDay d, (t - 1440).toNat⟩
  else ⟨d, t.toNat⟩

/-! ### Time-token handling (scrape.js lines 405-412) -/

/-- Match of the regex `/all\s*day/i` anywhere in a lowercased character
list: the letters `all`, then any run of whitespace, then `day`. -/
def allDayAt (l : List Char) : Bool :=
  match l with
  | 'a' :: 'l' :: 'l' :: rest => startsWithL ['d', 'a', 'y'] (rest.dropWhile isWs)
  | _ => false

/-- Scan for a `/all\s*day/i` match at any position. -/
def hasAllDay : List Char → Bool
  | [] => false
  | c :: cs => allDayAt (c :: cs) || hasAllDay cs

/-- The all-day guard of the normalization loop (scrape.js line 405):
`/all\s*day/i.test(timeStr) || timeStr === '-' || !timeStr`. -/
def isAllDayToken (s : String) : Bool :=
  hasAllDay (jsToLower s).data || s == "-" || s == ""

/-- Decimal digit value of a character, if any. -/
def digitVal (c : Char) : Option Nat :=
  if 48 ≤ c.toNat ∧ c.toNat ≤ 57 then some (c.toNat - 48) else none

/-- Read one or two leading digits (greedy), returning the value and the
rest — the behaviour of the luxon tokens `h` and `H` (`\d` one or two). -/
def readHour12 : List Char → Option (Nat × List Char)
  | [] => none
  | c :: cs =>
    match digitVal c with
    | none => none
    | some v1 =>
      match cs with
      | c2 :: cs2 =>
        match digitVal c2 with
        | some v2 => some (10 * v1 + v2, cs2)
        | none => some (v1, c2 :: cs2)
      | [] => some (v1, [])

/-- Read exactly two digits, the luxon `mm` token. -/
def readMin2 : List Char → Option (Nat × List Char)
  | c1 :: c2 :: rest =>
    match digitVal c1, digitVal c2 with
    | some v1, some v2 => some (10 * v1 + v2, rest)
    | _, _ => none
  | _ => none

/-- luxon `DateTime.fromFormat(_, 'h:mma')` applied to the time token
(scrape.js line 408): a 12-hour clock `h:mm` with an `am`/`pm` suffix.
Returns the minute of day.  Meridiem letters are matched
case-insensitively; the hour must lie in 1..12 and the minutes in 0..59,
otherwise the parse is invalid. -/
def parse12 (s : String) : Option Nat :=
  match readHour12 s.data with
  | none => none
  | some (h, rest) =>
    match rest with
    | ':' :: rest2 =>
      match readMin2 rest2 with
      | none => none
      | some (m, rest3) =>
        if h < 1 ∨ 12 < h ∨ 59 < m then none
        else
          match rest3.map lowChar with
          | ['a', 'm'] => some ((if h = 12 then 0 else h) * 60 + m)
          | ['p', 'm'] => some ((if h = 12 then 12 else h + 12) * 60 + m)
          | _ => none
    | _ => none

/-- luxon `DateTime.fromFormat(_, 'H:mm')` applied to the time token
(scrape.js line 409): a 24-hour clock `H:mm`.  Returns the minute of
day; hour 0..23 and minutes 0..59, nothing may follow. -/
def parse24 (s : String) : Option Nat :=
  match readHour12 s.data with
  | none => none
  | some (h, rest) =>
    match rest with
    | ':' :: rest2 =>
      match readMin2 rest2 with
      | none => none
      | some (m, rest3) =>
        if 23 < h ∨ 59 < m ∨ rest3 ≠ [] then none
        else some (h * 60 + m)
    | _ => none

/-- The start-instant resolution of the normalization loop (scrape.js
lines 402-412).  The raw row carries the UTC instant of its `dateISO`
string as a `Date` plus minute of day; `timeStr` is the extracted time
token.  The result is the wall-clock start in the configured zone, or
`none` when the row is discarded. -/
def resolveStart (off : Int) (dUTC : Date) (minUTC : Nat) (timeStr : String) : Option Wall :=
  let base := setZoneFromUTC off dUTC minUTC
  if isAllDayToken timeStr then some ⟨base.date, 0⟩
  else
    match parse12 timeStr with
    | some t => some ⟨base.date, t⟩
    | none =>
      match parse24 timeStr with
      | some t => some ⟨base.date, t⟩
      | none => none

/-! ### Slug construction

Model of `slugify(title, \x7b lower: true, strict: true \x7d)`: strict mode
removes every character that is not ASCII-alphanumeric and not whitespace,
the result is trimmed, runs of whitespace are replaced by `-`, and the
whole string is lowercased. -/

/-- Is the character kept by slugify strict mode? -/
def slugKeep (c : Char) : Bool :=
  (48 ≤ c.toNat && c.toNat ≤ 57) || (65 ≤ c.toNat && c.toNat ≤ 90) ||
  (97 ≤ c.toNat && c.toNat ≤ 122) || isWs c

/-- Worker for `wsRuns`: the flag records whether the previous character
belonged to a whitespace run. -/
def wsRunsF : Bool → List Char → List Char
  | _, [] => []
  | inRun, c :: cs =>
    if isWs c then (if inRun then wsRunsF true cs else '-' :: wsRunsF true cs)
    else c :: wsRunsF false cs

/-- Replace each maximal run of whitespace by a single `-`. -/
def wsRuns (l : List Char) : List Char := wsRunsF false l

/-- `slugify` with the options used in scrape.js line 415. -/
def slugify (s : String) : String :=
  jsToLower (String.mk (wsRuns (jsTrim (String.mk (s.data.filter slugKeep))).data))

/-! ### Canonical ISO rendering of an instant

Model of luxon `start.toISO()` for a fixed-offset zone: the fixed-width
form `yyyy-LL-ddTHH:mm:ss.SSS+HH:MM` (seconds and milliseconds are always
zero for instants built by the pipeline, which sets only hour and
minute). -/

/-- The decimal digit character for `n % 10`. -/
def digitCh (n : Nat) : Char := Char.ofNat (48 + n % 10)

/-- Two-digit zero-padded rendering (faithful for `n < 100`). -/
def pad2 (n : Nat) : List Char := [digitCh (n / 10), digitCh (n % 10)]

/-- Four-digit zero-padded rendering (faithful for `n < 10000`). -/
def pad4 (n : Nat) : List Char :=
  [digitCh (n / 1000), digitCh (n / 100 % 10), digitCh (n / 10 % 10), digitCh (n % 10)]

/-- The `+HH:MM` / `-HH:MM` offset suffix of luxon `toISO` for a
fixed-offset zone of `off` minutes. -/
def offsetChars (off : Int) : List Char :=
  (if off < 0 then '-' else '+') :: pad2 (off.natAbs / 60) ++ ':' :: pad2 (off.natAbs % 60)

/-- Character form of `start.toISO()` for wall clock `w` in the zone of
offset `off`. -/
def isoChars (w : Wall) (off : Int) : List Char :=
  pad4 w.date.year ++ '-' :: pad2 w.date.month ++ '-' :: pad2 w.date.day ++
  'T' :: pad2 (w.minute / 60) ++ ':' :: pad2 (w.minute % 60) ++
  (':' :: '0' :: '0' :: '.' :: '0' :: '0' :: '0' :: offsetChars off)

/-- `start.toISO()` (scrape.js lines 415 and 419). -/
def isoRender (w : Wall) (off : Int) : String := String.mk (isoChars w off)

/-! ### The canonical event record (scrape.js lines 414-423) -/

/-- A `CanonicalEvent` as pushed by the second-revision normalization
loop: `id`, `title`, `currency`, `impact`, `startISO`, `tz`, `year`,
`month`. -/
structure Ev where
  id : String
  title : String
  currency : String
  impact : String
  startISO : String
  tz : String
  year : Nat
  month : String
deriving DecidableEq, Repr

/-- A raw extracted row, as handed from the extractors to the
normalization loop.  `hdrDate`/`extMin` are the structural content of the
`dateISO` string: the UTC calendar date and UTC minute of day of the
instant it denotes (the loose extractor always emits minute 0; the
structured extractor emits the row time of day). -/
structure RawRow where
  currency : String
  title : String
  impactRaw : String
  timeStr : String
  hdrDate : Date
  extMin : Nat
deriving DecidableEq, Repr

/-- The run configuration: zone offset and name (`TZ`), and the two
allow-lists (`FF_CURRENCIES`, `FF_IMPACTS` after `parseAllowList`). -/
structure Config where
  off : Int
  tzName : String
  currencies : List String
  impacts : List String

/-- One month window of the driver: the window label (`m.y`, `m.m`), the
outcomes of the successive fetch attempts for this window, and the raw
rows its document extracts. -/
structure Window where
  year : Nat
  month : String
  attempts : List Bool
  rows : List RawRow

/-- Body of the second-revision normalization loop (scrape.js lines
395-424) for one raw row: currency filter, impact classification and
filter, start resolution, record construction.  `none` models
`continue`. -/
def normalizeRow (cfg : Config) (wYear : Nat) (wMonth : String) (r : RawRow) : Option Ev :=
  let currency := jsToUpper r.currency
  if !(cfg.currencies.contains currency) then none
  else
    let impact := impactNormalize r.impactRaw
    if impactRejected cfg.impacts impact then none
    else
      match resolveStart cfg.off r.hdrDate r.extMin r.timeStr with
      | none => none
      | some w =>
        some
          { id := isoRender w cfg.off ++ "__" ++ currency ++ "__" ++
              slugify (jsSlice0 100 r.title)
            title := r.title
            currency := currency
            impact := impact
            startISO := isoRender w cfg.off
            tz := cfg.tzName
            year := wYear
            month := wMonth }

/-- The dedupe key of scrape.js line 430:
`x.startISO + '__' + x.currency + '__' + x.title`. -/
def dedupeKeyOf (e : Ev) : String := e.startISO ++ "__" ++ e.currency ++ "__" ++ e.title

/-! ### Deduplication and sorting -/

/-- Worker for `dedupeByKey`: `seen` is the set of keys already present in
the `Map`. -/
def dedupeGo (key : α → String) (seen : List String) : List α → List α
  | [] => []
  | x :: xs =>
    if seen.contains (key x) then dedupeGo key seen xs
    else x :: dedupeGo key (key x :: seen) xs

/-- `dedupeByKey` from scrape.js lines 199-206: insert each element into a
`Map` under its key unless the key is present, then list the values in
insertion order. -/
def dedupeByKey (key : α → String) (l : List α) : List α := dedupeGo key [] l

/-- The dedupe step of pull-ff-xml.js lines 540-546: a `filter` with a
`seen` set, keeping an element exactly when its key has not been seen. -/
def xmlDedupeGo (key : α → String) (seen : List String) : List α → List α
  | [] => []
  | x :: xs =>
    if seen.contains (key x) then xmlDedupeGo key seen xs
    else x :: xmlDedupeGo key (key x :: seen) xs

/-- pull-ff-xml.js dedupe over a whole list. -/
def xmlDedupe (key : α → String) (l : List α) : List α := xmlDedupeGo key [] l

/-- Lexicographic (code-unit) string comparison, the order realised by the
sort comparator `(a, b) => a.startISO.localeCompare(b.startISO)` on the
fixed-format ASCII timestamps handled here. -/
def lexLe : List Char → List Char → Bool
  | [], _ => true
  | _ :: _, [] => false
  | a :: as, b :: bs =>
    if a.toNat < b.toNat then true
    else if b.toNat < a.toNat then false
    else lexLe as bs

/-- The sort comparator of scrape.js line 431. -/
def evLe (a b : Ev) : Bool := lexLe a.startISO.data b.startISO.data

/-- Insert into a sorted list, placing `x` before the first element not
strictly below it — the placement realised by the stable JS
`Array.prototype.sort`. -/
def insertS (le : α → α → Bool) (x : α) : List α → List α
  | [] => [x]
  | y :: ys => if le x y then x :: y :: ys else y :: insertS le x ys

/-- Stable sort (insertion sort), modelling the stable JS
`Array.prototype.sort` with a total comparator. -/
def isortS (le : α → α → Bool) : List α → List α
  | [] => []
  | x :: xs => insertS le x (isortS le xs)

/-- The reduce step of the second-revision scrape pipeline (scrape.js
lines 429-431): dedupe by `startISO + '__' + currency + '__' + title`,
then sort ascending by `startISO`. -/
def finalizeScrape (l : List Ev) : List Ev := isortS evLe (dedupeByKey dedupeKeyOf l)

/-- The reduce step of pull-ff-xml.js (lines 643-648): sort ascending by
`startISO`, then keep the first occurrence of each key. -/
def finalizeXml (l : List Ev) : List Ev := xmlDedupe dedupeKeyOf (isortS evLe l)

/-! ### Pipeline drivers -/

/-- `gotoSafe` (scrape.js lines 217-234) as seen by the driver: three
attempts; the call succeeds if one of the first three attempts succeeds
and otherwise rethrows the third error. -/
def gotoOk (attempts : List Bool) : Bool := (attempts.take 3).any id

/-- All rows of one window pushed by the normalization loop, in order. -/
def normalizeAll (cfg : Config) (w : Window) : List Ev :=
  w.rows.filterMap (normalizeRow cfg w.year w.month)

/-- The second-revision driver (scrape.js lines 379-427): windows are
processed in order; `gotoSafe` failure is an uncaught exception that
aborts the whole run (`Except.error`), otherwise the window's normalized
rows are appended to the accumulator. -/
def driveV2 (cfg : Config) : List Window → Except Unit (List Ev)
  | [] => .ok []
  | w :: ws =>
    if gotoOk w.attempts then (driveV2 cfg ws).map (fun rest => normalizeAll cfg w ++ rest)
    else .error ()

/-- The second-revision main tail (scrape.js lines 429-444): reduce, write
the artifact, exit 2 when the reduced dataset is empty and 0 otherwise.
The pair is the written dataset and the exit status. -/
def mainV2 (cfg : Config) (ws : List Window) : Except Unit (List Ev × Nat) :=
  (driveV2 cfg ws).map fun all =>
    let uniq := finalizeScrape all
    (uniq, if uniq.length == 0 then 2 else 0)

/-- The first-revision driver (scrape.js lines 143-156): per-window
retry loop with `try`/`catch`; a window whose three attempts all fail
contributes nothing (`Give up this month`) and the loop continues.  The
event list of a window stands for the records its `scrapeMonth` call
returns. -/
def driveV1 : List (List Bool × List Ev) → List Ev
  | [] => []
  | (att, part) :: ws => (if gotoOk att then part else []) ++ driveV1 ws

/-- The first-revision main tail (scrape.js lines 158-169): dedupe, sort,
write, then `process.exit(0)` unconditionally.  The pair is the written
dataset and the exit status. -/
def mainV1 (ws : List (List Bool × List Ev)) : List Ev × Nat :=
  (finalizeScrape (driveV1 ws), 0)

/-! ### The loose fallback extractor (scrape.js lines 326-367)

`extractFallbackLoose` scans the flattened text of block elements.  The
JS regexes are embedded as explicit scanning functions: leftmost match
wins, alternatives are tried in written order, quantifiers are greedy
with the (here trivial) backtracking of the originals, and `\b` is the
JS word boundary. -/

/-- JS `\w`: ASCII letters, digits, underscore. -/
def isWordChar (c : Char) : Bool :=
  (48 ≤ c.toNat && c.toNat ≤ 57) || (65 ≤ c.toNat && c.toNat ≤ 90) ||
  (97 ≤ c.toNat && c.toNat ≤ 122) || c == '_'

/-- JS `\b` between two adjacent positions (`none` = string edge). -/
def boundaryB (a b : Option Char) : Bool :=
  (match a with | none => false | some c => isWordChar c) !=
  (match b with | none => false | some c => isWordChar c)

/-- Worker for `collapseWs`, analogous to `wsRunsF`. -/
def collapseWsF : Bool → List Char → List Char
  | _, [] => []
  | inRun, c :: cs =>
    if isWs c then (if inRun then collapseWsF true cs else ' ' :: collapseWsF true cs)
    else c :: collapseWsF false cs

/-- `replace(/\s+/g, ' ')`: collapse each whitespace run to one space. -/
def collapseWs (l : List Char) : List Char := collapseWsF false l

/-- The text preprocessing `(el.textContent||'').replace(/\s+/g,' ').trim()`. -/
def flattenText (s : String) : String := jsTrim (String.mk (collapseWs s.data))

/-- Uppercase ASCII letter test (`[A-Z]`). -/
def isUpperAZ (c : Char) : Bool := 65 ≤ c.toNat && c.toNat ≤ 90

/-- ASCII letter test (`[A-Za-z]`). -/
def isAlphaAZ (c : Char) : Bool :=
  (65 ≤ c.toNat && c.toNat ≤ 90) || (97 ≤ c.toNat && c.toNat ≤ 122)

/-- The one- or two-digit readings of `\d{1,2}` in greedy backtracking
order (two digits first). -/
def readDigits12 (l : List Char) : List (List Char × List Char) :=
  match l with
  | c1 :: rest1 =>
    if (digitVal c1).isSome then
      match rest1 with
      | c2 :: rest2 =>
        if (digitVal c2).isSome then [([c1, c2], rest2), ([c1], rest1)] else [([c1], rest1)]
      | [] => [([c1], [])]
    else []
  | [] => []

/-- Continue a time match after the hour digits with `:\d{2}\s*[ap]m`
(case-insensitive).  Returns the matched characters and the rest. -/
def contTime12 (ds : List Char × List Char) : Option (List Char × List Char) :=
  match ds.2 with
  | ':' :: m1 :: m2 :: l3 =>
    if (digitVal m1).isSome && (digitVal m2).isSome then
      let ws := l3.takeWhile isWs
      match l3.dropWhile isWs with
      | a :: m :: l5 =>
        if (lowChar a == 'a' || lowChar a == 'p') && lowChar m == 'm' then
          some (ds.1 ++ ':' :: m1 :: m2 :: ws ++ [a, m], l5)
        else none
      | _ => none
    else none
  | _ => none

/-- Continue a time match after the hour digits with `:\d{2}`. -/
def contTime24 (ds : List Char × List Char) : Option (List Char × List Char) :=
  match ds.2 with
  | ':' :: m1 :: m2 :: l3 =>
    if (digitVal m1).isSome && (digitVal m2).isSome then
      some (ds.1 ++ [':', m1, m2], l3)
    else none
  | _ => none

/-- Case-insensitive literal match of `pat` (given lowercased) at the
front of `l`; returns the matched original characters and the rest. -/
def matchCI (pat : List Char) (l : List Char) : Option (List Char × List Char) :=
  if (l.take pat.length).map lowChar = pat ∧ pat.length ≤ l.length then
    some (l.take pat.length, l.drop pat.length)
  else none

/-- All candidates of the time-token alternation
`\d{1,2}:\d{2}\s*[ap]m|\d{1,2}:\d{2}|All Day|-` at one position, in the
order the JS regex engine explores them. -/
def timeCandidates (l : List Char) : List (List Char × List Char) :=
  (readDigits12 l).filterMap contTime12 ++ (readDigits12 l).filterMap contTime24 ++
  (matchCI "all day".data l).toList ++
  (match l with
   | '-' :: rest => [(['-'], rest)]
   | _ => [])

/-- Leftmost match of `/\b(\d{1,2}:\d{2}\s*[ap]m|\d{1,2}:\d{2}|All Day|-)\b/i`:
scan positions left to right (`pc` is the previous character), check the
leading boundary, then take the first candidate whose trailing boundary
holds.  Returns the matched characters. -/
def findTimeTok (pc : Option Char) : List Char → Option (List Char)
  | [] => none
  | c :: cs =>
    (if boundaryB pc (some c) then
      (timeCandidates (c :: cs)).findSome? fun mr =>
        if boundaryB mr.1.getLast? mr.2.head? then some mr.1 else none
    else none) <|> findTimeTok (some c) cs

/-- Leftmost match of `/\b([A-Z]{3})\b/`. -/
def findCur (pc : Option Char) : List Char → Option (List Char)
  | [] => none
  | c :: cs =>
    (match cs with
     | c2 :: c3 :: rest =>
       if boundaryB pc (some c) && isUpperAZ c && isUpperAZ c2 && isUpperAZ c3 &&
          boundaryB (some c3) rest.head? then
         some [c, c2, c3]
       else none
     | _ => none) <|> findCur (some c) cs

/-- The lowercased weekday names of the day-header regex, in alternation
order. -/
def weekdayNames : List (List Char) :=
  ["monday", "tuesday", "wednesday", "thursday", "friday", "saturday",
   "sunday"].map String.data

/-- Match the day-header pattern
`\b(monday|...|sunday)\b\s+([A-Za-z]+)\s+(\d{1,2})` (case-insensitive)
at one position; returns the lowercased month-name group and the day
number. -/
def matchHeaderAt (pc : Option Char) (l : List Char) : Option (List Char × Nat) :=
  if !boundaryB pc l.head? then none
  else
    match weekdayNames.findSome? (fun w => matchCI w l) with
    | none => none
    | some (wd, rest1) =>
      if !boundaryB wd.getLast? rest1.head? then none
      else
        let rest2 := rest1.dropWhile isWs
        if rest1.takeWhile isWs |>.isEmpty then none
        else
          let letters := rest2.takeWhile isAlphaAZ
          let rest3 := rest2.dropWhile isAlphaAZ
          if letters.isEmpty then none
          else if rest3.takeWhile isWs |>.isEmpty then none
          else
            match readDigits12 (rest3.dropWhile isWs) with
            | (ds, _) :: _ =>
              some (letters.map lowChar, ds.foldl (fun a c => 10 * a + (c.toNat - 48)) 0)
            | [] => none

/-- Leftmost day-header match over a whole text. -/
def findHeader (pc : Option Char) : List Char → Option (List Char × Nat)
  | [] => none
  | c :: cs => matchHeaderAt pc (c :: cs) <|> findHeader (some c) cs

/-- The month lookup table of the loose extractor (scrape.js lines
330-333). -/
def monthNum (name : List Char) : Option Nat :=
  (["january", "february", "march", "april", "may", "june", "july",
    "august", "september", "october", "november",
    "december"].map String.data).indexOf? name |>.map (· + 1)

/-- JS `s.replace(pat, '')` for a non-empty literal `pat`: remove the
first occurrence, if any. -/
def replFirstL (pat : List Char) : List Char → List Char
  | [] => []
  | c :: cs => if startsWithL pat (c :: cs) then (c :: cs).drop pat.length
      else c :: replFirstL pat cs

/-- The keyword lowercased alternatives of the trailing-section cut. -/
def cutKeywords : List (List Char) := ["previous", "forecast", "actual"].map String.data

/-- Index of the leftmost match of `/\b(Previous|Forecast|Actual)\b/i`,
as JS `String.prototype.search` (position `i`, previous char `pc`). -/
def findKwIdx (pc : Option Char) (i : Nat) : List Char → Option Nat
  | [] => none
  | c :: cs =>
    (if boundaryB pc (some c) then
      cutKeywords.findSome? fun k =>
        match matchCI k (c :: cs) with
        | some (m, rest) => if boundaryB m.getLast? rest.head? then some i else none
        | none => none
    else none) <|> findKwIdx (some c) (i + 1) cs

/-- The title truncation of scrape.js lines 353-354: cut at the keyword
when its index is positive, then trim. -/
def cutTitle (t : String) : String :=
  match findKwIdx none 0 t.data with
  | some i => if 0 < i then jsTrim (String.mk (t.data.take i)) else t
  | none => t

/-- One block-element step of `extractFallbackLoose` (scrape.js lines
336-364): flatten the text, update the date cursor on a day header,
otherwise emit a raw row when the date cursor is set and both a currency
token and a time token occur.  The emitted `dateISO` is the midnight-UTC
instant of the cursor date. -/
def looseStep (year : Nat) (st : Option Date × List RawRow) (block : String) :
    Option Date × List RawRow :=
  let txt := flattenText block
  match findHeader none txt.data with
  | some (mname, dd) =>
    match monthNum mname with
    | some mm => (some ⟨year, mm, dd⟩, st.2)
    | none => (st.1, st.2)
  | none =>
    match st.1, findCur none txt.data, findTimeTok none txt.data with
    | some d, some c, some t =>
      let title0 := jsTrim (String.mk (replFirstL c (replFirstL t txt.data)))
      (st.1, st.2 ++ [⟨String.mk c, cutTitle title0, "", String.mk t, d, 0⟩])
    | _, _, _ => (st.1, st.2)

/-- `extractFallbackLoose` over the block texts of a document. -/
def looseExtract (year : Nat) (blocks : List String) : List RawRow :=
  (blocks.foldl (looseStep year) (none, [])).2

/-! ### Properties of the lexicographic comparison -/

theorem lexLe_refl (l : List Char) : lexLe l l = true := by
  induction l with
  | nil => rfl
  | cons c cs ih => simpa [lexLe, Nat.lt_irrefl] using ih

theorem lexLe_total (a b : List Char) (h : lexLe a b = false) : lexLe b a = true := by
  induction a generalizing b with
  | nil => simp [lexLe] at h
  | cons x xs ih =>
    cases b with
    | nil => rfl
    | cons y ys =>
      simp only [lexLe] at h ⊢
      by_cases h1 : x.toNat < y.toNat
      · rw [if_pos h1] at h
        cases h
      · rw [if_neg h1] at h
        by_cases h2 : y.toNat < x.toNat
        · rw [if_pos h2]
        · rw [if_neg h2] at h
          rw [if_neg h2, if_neg h1]
          exact ih ys h

theorem lexLe_trans (a b c : List Char) (hab : lexLe a b = true)
    (hbc : lexLe b c = true) : lexLe a c = true := by
  induction a generalizing b c with
  | nil => rfl
  | cons x xs ih =>
    cases b with
    | nil => simp [lexLe] at hab
    | cons y ys =>
      cases c with
      | nil => simp [lexLe] at hbc
      | cons z zs =>
        simp only [lexLe] at hab hbc ⊢
        by_cases h1 : x.toNat < y.toNat
        · by_cases h2 : y.toNat < z.toNat
          · rw [if_pos (by omega : x.toNat < z.toNat)]
          · rw [if_neg h2] at hbc
            by_cases h3 : z.toNat < y.toNat
            · rw [if_pos h3] at hbc
              cases hbc
            · rw [if_pos (by omega : x.toNat < z.toNat)]
        · rw [if_neg h1] at hab
          by_cases h3 : y.toNat < x.toNat
          · rw [if_pos h3] at hab
            cases hab
          · rw [if_neg h3] at hab
            by_cases h2 : y.toNat < z.toNat
            · rw [if_pos (by omega : x.toNat < z.toNat)]
            · rw [if_neg h2] at hbc
              by_cases h4 : z.toNat < y.toNat
              · rw [if_pos h4] at hbc
                cases hbc
              · rw [if_neg h4] at hbc
                rw [if_neg (by omega : ¬ x.toNat < z.toNat),
                  if_neg (by omega : ¬ z.toNat < x.toNat)]
                exact ih ys zs hab hbc

theorem lexLe_cons_same (c : Char) (u v : List Char) :
    lexLe (c :: u) (c :: v) = lexLe u v := by
  simp [lexLe, Nat.lt_irrefl]

theorem lexLe_append_same (x u v : List Char) :
    lexLe (x ++ u) (x ++ v) = lexLe u v := by
  induction x with
  | nil => rfl
  | cons c cs ih => simpa [lexLe_cons_same] using ih

theorem lexLe_append_strict (x y u v : List Char) (hlen : x.length = y.length)
    (h1 : lexLe x y = true) (h2 : lexLe y x = false) :
    lexLe (x ++ u) (y ++ v) = true ∧ lexLe (y ++ v) (x ++ u) = false := by
  induction x generalizing y with
  | nil =>
    cases y with
    | nil => simp [lexLe] at h2
    | cons z zs => simp at hlen
  | cons a as ih =>
    cases y with
    | nil => simp at hlen
    | cons b bs =>
      simp only [List.cons_append, lexLe] at h1 h2 ⊢
      by_cases hl : a.toNat < b.toNat
      · rw [if_pos hl, if_neg (by omega : ¬ b.toNat < a.toNat), if_pos hl]
        exact ⟨rfl, rfl⟩
      · by_cases hg : b.toNat < a.toNat
        · rw [if_neg hl, if_pos hg] at h1
          cases h1
        · simp only [if_neg hl, if_neg hg] at h1 h2 ⊢
          exact ih bs (by simpa using hlen) h1 h2

/-! ### Properties of the stable insertion sort -/

section SortLemmas

variable {α : Type} (le : α → α → Bool)

theorem insertS_perm (x : α) (l : List α) : List.Perm (insertS le x l) (x :: l) := by
  induction l with
  | nil => rfl
  | cons y ys ih =>
    cases hxy : le x y with
    | true => simp [insertS, hxy]
    | false =>
      simp only [insertS, hxy, Bool.false_eq_true, if_false]
      exact (ih.cons y).trans (List.Perm.swap x y ys)

theorem isortS_perm (l : List α) : List.Perm (isortS le l) l := by
  induction l with
  | nil => rfl
  | cons x xs ih => exact (insertS_perm le x (isortS le xs)).trans (ih.cons x)

theorem mem_insertS (x z : α) (l : List α) :
    z ∈ insertS le x l ↔ z = x ∨ z ∈ l := by
  rw [(insertS_perm le x l).mem_iff]
  simp

theorem insertS_pairwise
    (hto : ∀ a b, le a b = false → le b a = true)
    (htr : ∀ a b c, le a b = true → le b c = true → le a c = true)
    (x : α) (l : List α) (hl : l.Pairwise (fun a b => le a b = true)) :
    (insertS le x l).Pairwise (fun a b => le a b = true) := by
  induction l with
  | nil => simp [insertS]
  | cons y ys ih =>
    rcases List.pairwise_cons.mp hl with ⟨hy, hys⟩
    cases hxy : le x y with
    | true =>
      simp only [insertS, hxy, if_true]
      refine List.pairwise_cons.mpr ⟨?_, hl⟩
      intro z hz
      rcases List.mem_cons.mp hz with rfl | hz
      · exact hxy
      · exact htr x y z hxy (hy z hz)
    | false =>
      simp only [insertS, hxy, Bool.false_eq_true, if_false]
      refine List.pairwise_cons.mpr ⟨?_, ih hys⟩
      intro z hz
      rcases (mem_insertS le x z ys).mp hz with hz | hz
      · rw [hz]
        exact hto x y hxy
      · exact hy z hz

theorem isortS_pairwise
    (hto : ∀ a b, le a b = false → le b a = true)
    (htr : ∀ a b c, le a b = true → le b c = true → le a c = true)
    (l : List α) : (isortS le l).Pairwise (fun a b => le a b = true) := by
  induction l with
  | nil => simp [isortS]
  | cons x xs ih => exact insertS_pairwise le hto htr x (isortS le xs) ih

theorem insertS_eq_cons (x : α) (l : List α) (h : ∀ z ∈ l, le x z = true) :
    insertS le x l = x :: l := by
  cases l with
  | nil => rfl
  | cons y ys => simp [insertS, h y (by simp)]

theorem filter_insertS_pos (p : α → Bool) (x : α) (l : List α)
    (htr : ∀ a b c, le a b = true → le b c = true → le a c = true)
    (hx : p x = true) (hl : l.Pairwise (fun a b => le a b = true)) :
    (insertS le x l).filter p = insertS le x (l.filter p) := by
  induction l with
  | nil => simp [insertS, hx]
  | cons y ys ih =>
    rcases List.pairwise_cons.mp hl with ⟨hy, hys⟩
    cases hxy : le x y with
    | true =>
      simp only [insertS, hxy, if_true]
      cases hpy : p y with
      | true =>
        simp only [List.filter_cons, hx, hpy, if_true]
        simp [insertS, hxy]
      | false =>
        simp only [List.filter_cons, hx, hpy, Bool.false_eq_true, if_false, if_true]
        rw [insertS_eq_cons]
        intro z hz
        rcases List.mem_filter.mp hz with ⟨hzy, _⟩
        exact htr x y z hxy (hy z hzy)
    | false =>
      simp only [insertS, hxy, Bool.false_eq_true, if_false]
      cases hpy : p y with
      | true =>
        simp only [List.filter_cons, hpy, if_true, ih hys]
        simp [insertS, hxy]
      | false =>
        simp only [List.filter_cons, hpy, Bool.false_eq_true, if_false, ih hys]

theorem filter_insertS_neg (p : α → Bool) (x : α) (l : List α) (hx : p x = false) :
    (insertS le x l).filter p = l.filter p := by
  induction l with
  | nil => simp [insertS, hx]
  | cons y ys ih =>
    cases hxy : le x y with
    | true => simp [insertS, hxy, List.filter_cons, hx]
    | false =>
      cases hpy : p y with
      | true => simp [insertS, hxy, List.filter_cons, hpy, ih]
      | false => simp [insertS, hxy, List.filter_cons, hpy, ih]

theorem isortS_filter (p : α → Bool)
    (hto : ∀ a b, le a b = false → le b a = true)
    (htr : ∀ a b c, le a b = true → le b c = true → le a c = true)
    (l : List α) : isortS le (l.filter p) = (isortS le l).filter p := by
  induction l with
  | nil => rfl
  | cons x xs ih =>
    cases hx : p x with
    | true =>
      simp only [List.filter_cons, hx, if_true, isortS, ih]
      rw [filter_insertS_pos le p x (isortS le xs) htr hx (isortS_pairwise le hto htr xs)]
    | false =>
      simp only [List.filter_cons, hx, Bool.false_eq_true, if_false, isortS, ih]
      rw [filter_insertS_neg le p x (isortS le xs) hx]

end SortLemmas

/-! ### First-occurrence deduplication -/

section DedupeLemmas

variable {α : Type} (k : α → String)

/-- Reference form of first-occurrence deduplication: keep the head,
drop every later element with the same key. -/
def keep : List α → List α
  | [] => []
  | x :: xs => x :: keep (xs.filter fun y => !(k y == k x))
termination_by l => l.length
decreasing_by
  have := List.length_filter_le (fun y => !(k y == k x)) xs
  simp only [List.length_cons]
  omega

theorem keep_sublist (l : List α) : (keep k l).Sublist l := by
  induction l using keep.induct k with
  | case1 => simp [keep]
  | case2 x xs ih =>
    rw [keep]
    exact (ih.trans (List.filter_sublist xs)).cons₂ x

theorem mem_of_mem_keep {l : List α} {x : α} (h : x ∈ keep k l) : x ∈ l :=
  (keep_sublist k l).subset h

theorem keep_key_nodup (l : List α) : ((keep k l).map k).Nodup := by
  induction l using keep.induct k with
  | case1 => simp [keep]
  | case2 x xs ih =>
    rw [keep]
    simp only [List.map_cons, List.nodup_cons]
    refine ⟨?_, ih⟩
    intro hmem
    rcases List.mem_map.mp hmem with ⟨y, hy, hky⟩
    have hyf := mem_of_mem_keep k hy
    rcases List.mem_filter.mp hyf with ⟨-, hne⟩
    simp only [Bool.not_eq_eq_eq_not, Bool.not_true, beq_eq_false_iff_ne] at hne
    exact hne hky

theorem mem_keep_keys (l : List α) : ∀ x ∈ l, k x ∈ (keep k l).map k := by
  induction l using keep.induct k with
  | case1 => simp
  | case2 x xs ih =>
    intro z hz
    rw [keep]
    simp only [List.map_cons, List.mem_cons]
    rcases List.mem_cons.mp hz with rfl | hz
    · exact Or.inl rfl
    · by_cases hkz : k z = k x
      · exact Or.inl hkz
      · refine Or.inr (ih z ?_)
        refine List.mem_filter.mpr ⟨hz, ?_⟩
        simp [hkz]

theorem keep_first_aux (n : Nat) :
    ∀ (l₁ : List α) (x : α) (l₂ : List α), l₁.length ≤ n →
      (∀ z ∈ l₁, k z ≠ k x) → x ∈ keep k (l₁ ++ x :: l₂) := by
  induction n with
  | zero =>
    intro l₁ x l₂ hlen _
    have : l₁ = [] := List.length_eq_zero.mp (Nat.le_zero.mp hlen)
    subst this
    rw [List.nil_append, keep]
    exact List.mem_cons_self x _
  | succ n ih =>
    intro l₁ x l₂ hlen hne
    cases l₁ with
    | nil =>
      rw [List.nil_append, keep]
      exact List.mem_cons_self x _
    | cons z t =>
      rw [List.cons_append, keep]
      have hpx : (!(k x == k z)) = true := by
        have := hne z (List.mem_cons_self z t)
        simp [Ne.symm this]
      rw [List.filter_append, List.filter_cons, if_pos hpx]
      refine List.mem_cons_of_mem z ?_
      refine ih (t.filter fun y => !(k y == k z)) x (l₂.filter fun y => !(k y == k z)) ?_ ?_
      · have := List.length_filter_le (fun y => !(k y == k z)) t
        simp only [List.length_cons] at hlen
        omega
      · intro w hw
        exact hne w (List.mem_cons_of_mem z (List.mem_filter.mp hw).1)

theorem keep_first (l₁ : List α) (x : α) (l₂ : List α)
    (hne : ∀ z ∈ l₁, k z ≠ k x) : x ∈ keep k (l₁ ++ x :: l₂) :=
  keep_first_aux k l₁.length l₁ x l₂ le_rfl hne

theorem dedupeGo_eq_keep (l : List α) :
    ∀ seen, dedupeGo k seen l = keep k (l.filter fun x => !(seen.contains (k x))) := by
  induction l with
  | nil => intro seen; simp [dedupeGo, keep]
  | cons x xs ih =>
    intro seen
    cases hc : seen.contains (k x) with
    | true =>
      simp only [dedupeGo, hc, if_true, List.filter_cons, Bool.not_true,
        Bool.false_eq_true, if_false]
      exact ih seen
    | false =>
      simp only [dedupeGo, hc, Bool.false_eq_true, if_false, List.filter_cons,
        Bool.not_false, if_true]
      rw [keep, ih (k x :: seen)]
      congr 2
      rw [List.filter_filter]
      refine List.filter_congr ?_
      intro y _
      simp only [List.contains_cons, Bool.not_or]

theorem dedupeByKey_eq_keep (l : List α) : dedupeByKey k l = keep k l := by
  rw [dedupeByKey, dedupeGo_eq_keep]
  congr 1
  rw [show (fun x => !(List.contains [] (k x))) = fun _ => true by
    funext x
    simp [List.contains]]
  exact List.filter_true l

theorem xmlDedupeGo_eq (seen : List String) (l : List α) :
    xmlDedupeGo k seen l = dedupeGo k seen l := by
  induction l generalizing seen with
  | nil => rfl
  | cons x xs ih =>
    simp only [xmlDedupeGo, dedupeGo]
    cases hc : seen.contains (k x) with
    | true => simpa [hc] using ih seen
    | false => simp [hc, ih]

theorem xmlDedupe_eq_keep (l : List α) : xmlDedupe k l = keep k l := by
  rw [xmlDedupe, xmlDedupeGo_eq, ← dedupeByKey, dedupeByKey_eq_keep]

end DedupeLemmas

/-! ### Sorting commutes with first-occurrence deduplication when the
dedupe key refines the sort key -/

section CommLemmas

variable {α : Type} (k : α → String) (le : α → α → Bool)

theorem keep_insertS_aux
    (htr : ∀ a b c, le a b = true → le b c = true → le a c = true) (n : Nat) :
    ∀ (x : α) (s : List α), s.length ≤ n →
      s.Pairwise (fun a b => le a b = true) →
      (∀ a ∈ x :: s, ∀ b ∈ x :: s, k a = k b → le a b = true) →
      keep k (insertS le x s) =
        insertS le x (keep k (s.filter fun y => !(k y == k x))) := by
  induction n with
  | zero =>
    intro x s hlen _ _
    have hnil : s = [] := List.length_eq_zero.mp (Nat.le_zero.mp hlen)
    subst hnil
    simp [insertS, keep]
  | succ n ih =>
    intro x s hlen hs hk
    cases s with
    | nil => simp [insertS, keep]
    | cons y t =>
      rcases List.pairwise_cons.mp hs with ⟨hy, ht⟩
      cases hxy : le x y with
      | true =>
        rw [show insertS le x (y :: t) = x :: y :: t by simp [insertS, hxy]]
        rw [keep]
        rw [insertS_eq_cons]
        intro z hz
        have hz1 := mem_of_mem_keep k hz
        have hz2 : z ∈ y :: t := (List.mem_filter.mp hz1).1
        rcases List.mem_cons.mp hz2 with rfl | hz3
        · exact hxy
        · exact htr x y z hxy (hy z hz3)
      | false =>
        have hneq : k x ≠ k y := by
          intro he
          have := hk x (by simp) y (by simp) he
          rw [this] at hxy
          cases hxy
        have hpyx : (!(k x == k y)) = true := by simp [hneq]
        have hpxy : (!(k y == k x)) = true := by simp [Ne.symm hneq]
        have hcomm :
            ((t.filter fun z => !(k z == k y)).filter fun z => !(k z == k x)) =
              ((t.filter fun z => !(k z == k x)).filter fun z => !(k z == k y)) := by
          rw [List.filter_filter, List.filter_filter]
          exact List.filter_congr fun z _ => Bool.and_comm _ _
        have hR :
            insertS le x (keep k ((y :: t).filter fun z => !(k z == k x))) =
              y :: insertS le x
                (keep k ((t.filter fun z => !(k z == k x)).filter fun z => !(k z == k y))) := by
          rw [List.filter_cons, if_pos hpxy, keep]
          simp [insertS, hxy]
        rw [hR]
        rw [show insertS le x (y :: t) = y :: insertS le x t by simp [insertS, hxy]]
        rw [keep]
        rw [filter_insertS_pos le _ x t htr hpyx ht]
        rw [ih x (t.filter fun z => !(k z == k y))
          (by
            have := List.length_filter_le (fun z => !(k z == k y)) t
            simp only [List.length_cons] at hlen
            omega)
          (List.Pairwise.filter _ ht)
          (by
            intro a ha b hb hab
            refine hk a ?_ b ?_ hab
            · rcases List.mem_cons.mp ha with rfl | ha2
              · exact List.mem_cons_self a _
              · exact List.mem_cons_of_mem _
                  (List.mem_cons_of_mem _ (List.mem_filter.mp ha2).1)
            · rcases List.mem_cons.mp hb with rfl | hb2
              · exact List.mem_cons_self b _
              · exact List.mem_cons_of_mem _
                  (List.mem_cons_of_mem _ (List.mem_filter.mp hb2).1))]
        rw [hcomm]

theorem isortS_keep_comm_aux
    (hto : ∀ a b, le a b = false → le b a = true)
    (htr : ∀ a b c, le a b = true → le b c = true → le a c = true) (n : Nat) :
    ∀ l : List α, l.length ≤ n →
      (∀ a ∈ l, ∀ b ∈ l, k a = k b → le a b = true) →
      isortS le (keep k l) = keep k (isortS le l) := by
  induction n with
  | zero =>
    intro l hlen _
    have hnil : l = [] := List.length_eq_zero.mp (Nat.le_zero.mp hlen)
    subst hnil
    simp [keep, isortS]
  | succ n ih =>
    intro l hlen hk2
    cases l with
    | nil => simp [keep, isortS]
    | cons x xs =>
      have hsx : (isortS le xs).length ≤ n := by
        rw [(isortS_perm le xs).length_eq]
        simp only [List.length_cons] at hlen
        omega
      rw [show isortS le (x :: xs) = insertS le x (isortS le xs) from rfl]
      rw [keep_insertS_aux k le htr n x (isortS le xs) hsx
        (isortS_pairwise le hto htr xs)
        (by
          intro a ha b hb hab
          refine hk2 a ?_ b ?_ hab
          · rcases List.mem_cons.mp ha with rfl | ha2
            · exact List.mem_cons_self a _
            · exact List.mem_cons_of_mem _ ((isortS_perm le xs).mem_iff.mp ha2)
          · rcases List.mem_cons.mp hb with rfl | hb2
            · exact List.mem_cons_self b _
            · exact List.mem_cons_of_mem _ ((isortS_perm le xs).mem_iff.mp hb2))]
      rw [← isortS_filter le _ hto htr xs]
      rw [← ih (xs.filter fun y => !(k y == k x))
        (by
          have := List.length_filter_le (fun y => !(k y == k x)) xs
          simp only [List.length_cons] at hlen
          omega)
        (by
          intro a ha b hb hab
          exact hk2 a (List.mem_cons_of_mem _ (List.mem_filter.mp ha).1)
            b (List.mem_cons_of_mem _ (List.mem_filter.mp hb).1) hab)]
      rw [show keep k (x :: xs) = x :: keep k (xs.filter fun y => !(k y == k x)) from by
        rw [keep]]
      rfl

theorem isortS_keep_comm
    (hto : ∀ a b, le a b = false → le b a = true)
    (htr : ∀ a b c, le a b = true → le b c = true → le a c = true)
    (l : List α) (hk2 : ∀ a ∈ l, ∀ b ∈ l, k a = k b → le a b = true) :
    isortS le (keep k l) = keep k (isortS le l) :=
  isortS_keep_comm_aux k le hto htr l.length l le_rfl hk2

end CommLemmas

/-! ### The fixed-width ISO rendering is monotone in the wall clock -/

theorem digitCh_toNat (n : Nat) (h : n < 10) : (digitCh n).toNat = 48 + n := by
  interval_cases n <;> decide

/-- Linearisation of a wall-clock point; for bounded fields it orders wall
points chronologically (all pipeline instants of one run share the same
zone offset, so wall-clock order is chronological order). -/
def wallNum (w : Wall) : Nat :=
  ((w.date.year * 100 + w.date.month) * 100 + w.date.day) * 1440 + w.minute

/-- Field bounds under which the fixed-width rendering is faithful. -/
def validWall (w : Wall) : Prop :=
  w.date.year < 10000 ∧ w.date.month < 100 ∧ w.date.day < 100 ∧ w.minute < 1440

instance (w : Wall) : Decidable (validWall w) := by
  unfold validWall
  infer_instance

theorem pad2_le_iff (a b : Nat) (ha : a < 100) (hb : b < 100) :
    (lexLe (pad2 a) (pad2 b) = true) ↔ a ≤ b := by
  have h1 := digitCh_toNat (a / 10) (by omega)
  have h2 := digitCh_toNat (a % 10) (by omega)
  have h3 := digitCh_toNat (b / 10) (by omega)
  have h4 := digitCh_toNat (b % 10) (by omega)
  simp only [pad2, lexLe, h1, h2, h3, h4]
  split_ifs with g1 g2 g3 g4 <;> simp <;> omega

theorem pad4_le_iff (a b : Nat) (ha : a < 10000) (hb : b < 10000) :
    (lexLe (pad4 a) (pad4 b) = true) ↔ a ≤ b := by
  have h1 := digitCh_toNat (a / 1000) (by omega)
  have h2 := digitCh_toNat (a / 100 % 10) (by omega)
  have h3 := digitCh_toNat (a / 10 % 10) (by omega)
  have h4 := digitCh_toNat (a % 10) (by omega)
  have h5 := digitCh_toNat (b / 1000) (by omega)
  have h6 := digitCh_toNat (b / 100 % 10) (by omega)
  have h7 := digitCh_toNat (b / 10 % 10) (by omega)
  have h8 := digitCh_toNat (b % 10) (by omega)
  simp only [pad4, lexLe, h1, h2, h3, h4, h5, h6, h7, h8]
  split_ifs <;> simp <;> omega

theorem lexLe_pad2_block (a b : Nat) (ha : a < 100) (hb : b < 100) (u v : List Char) :
    (lexLe (pad2 a ++ u) (pad2 b ++ v) = true) ↔
      (a < b ∨ (a = b ∧ lexLe u v = true)) := by
  rcases Nat.lt_trichotomy a b with h | h | h
  · have t1 : lexLe (pad2 a) (pad2 b) = true := (pad2_le_iff a b ha hb).mpr (by omega)
    have t2 : lexLe (pad2 b) (pad2 a) = false := by
      cases ht : lexLe (pad2 b) (pad2 a)
      · rfl
      · exact absurd ((pad2_le_iff b a hb ha).mp ht) (by omega)
    have hs := lexLe_append_strict (pad2 a) (pad2 b) u v (by simp [pad2]) t1 t2
    simp [hs.1, h]
  · subst h
    rw [lexLe_append_same]
    simp [Nat.lt_irrefl]
  · have t1 : lexLe (pad2 b) (pad2 a) = true := (pad2_le_iff b a hb ha).mpr (by omega)
    have t2 : lexLe (pad2 a) (pad2 b) = false := by
      cases ht : lexLe (pad2 a) (pad2 b)
      · rfl
      · exact absurd ((pad2_le_iff a b ha hb).mp ht) (by omega)
    have hs := lexLe_append_strict (pad2 b) (pad2 a) v u (by simp [pad2]) t1 t2
    rw [hs.2]
    constructor
    · intro hx
      exact absurd hx (by simp)
    · intro hx
      rcases hx with hx | ⟨hx, -⟩ <;> omega

theorem lexLe_pad4_block (a b : Nat) (ha : a < 10000) (hb : b < 10000) (u v : List Char) :
    (lexLe (pad4 a ++ u) (pad4 b ++ v) = true) ↔
      (a < b ∨ (a = b ∧ lexLe u v = true)) := by
  rcases Nat.lt_trichotomy a b with h | h | h
  · have t1 : lexLe (pad4 a) (pad4 b) = true := (pad4_le_iff a b ha hb).mpr (by omega)
    have t2 : lexLe (pad4 b) (pad4 a) = false := by
      cases ht : lexLe (pad4 b) (pad4 a)
      · rfl
      · exact absurd ((pad4_le_iff b a hb ha).mp ht) (by omega)
    have hs := lexLe_append_strict (pad4 a) (pad4 b) u v (by simp [pad4]) t1 t2
    simp [hs.1, h]
  · subst h
    rw [lexLe_append_same]
    simp [Nat.lt_irrefl]
  · have t1 : lexLe (pad4 b) (pad4 a) = true := (pad4_le_iff b a hb ha).mpr (by omega)
    have t2 : lexLe (pad4 a) (pad4 b) = false := by
      cases ht : lexLe (pad4 a) (pad4 b)
      · rfl
      · exact absurd ((pad4_le_iff a b ha hb).mp ht) (by omega)
    have hs := lexLe_append_strict (pad4 b) (pad4 a) v u (by simp [pad4]) t1 t2
    rw [hs.2]
    constructor
    · intro hx
      exact absurd hx (by simp)
    · intro hx
      rcases hx with hx | ⟨hx, -⟩ <;> omega

theorem isoChars_le_iff (w₁ w₂ : Wall) (off : Int)
    (h₁ : validWall w₁) (h₂ : validWall w₂) :
    (lexLe (isoChars w₁ off) (isoChars w₂ off) = true) ↔ wallNum w₁ ≤ wallNum w₂ := by
  obtain ⟨hy1, hm1, hd1, hmin1⟩ := h₁
  obtain ⟨hy2, hm2, hd2, hmin2⟩ := h₂
  unfold isoChars
  simp only [List.append_assoc, List.cons_append]
  rw [lexLe_pad4_block _ _ hy1 hy2, lexLe_cons_same,
    lexLe_pad2_block _ _ hm1 hm2, lexLe_cons_same,
    lexLe_pad2_block _ _ hd1 hd2, lexLe_cons_same,
    lexLe_pad2_block _ _ (by omega : w₁.minute / 60 < 100) (by omega : w₂.minute / 60 < 100),
    lexLe_cons_same,
    lexLe_pad2_block _ _ (by omega : w₁.minute % 60 < 100) (by omega : w₂.minute % 60 < 100),
    lexLe_refl]
  unfold wallNum
  constructor
  · intro h
    rcases h with h | ⟨e1, h | ⟨e2, h | ⟨e3, h | ⟨e4, h | ⟨e5, -⟩⟩⟩⟩⟩ <;> omega
  · intro h
    by_cases e1 : w₁.date.year = w₂.date.year
    · refine Or.inr ⟨e1, ?_⟩
      by_cases e2 : w₁.date.month = w₂.date.month
      · refine Or.inr ⟨e2, ?_⟩
        by_cases e3 : w₁.date.day = w₂.date.day
        · refine Or.inr ⟨e3, ?_⟩
          by_cases e4 : w₁.minute / 60 = w₂.minute / 60
          · refine Or.inr ⟨e4, ?_⟩
            by_cases e5 : w₁.minute % 60 = w₂.minute % 60
            · exact Or.inr ⟨e5, rfl⟩
            · exact Or.inl (by omega)
          · exact Or.inl (by omega)
        · exact Or.inl (by omega)
      · exact Or.inl (by omega)
    · exact Or.inl (by omega)

/-! ### Facts about the normalizer used by the record-contract claims -/

theorem charOfNat_toNat_upper (n : Nat) (h1 : 65 ≤ n) (h2 : n ≤ 90) :
    (Char.ofNat n).toNat = n := by
  interval_cases n <;> decide

theorem upChar_not_lower (c : Char) :
    ¬(97 ≤ (upChar c).toNat ∧ (upChar c).toNat ≤ 122) := by
  unfold upChar
  split
  case isTrue h =>
    rw [charOfNat_toNat_upper (c.toNat - 32) (by omega) (by omega)]
    omega
  case isFalse h => omega

/-- No lowercase ASCII letter occurs in the string. -/
def noLowerStr (s : String) : Bool :=
  s.data.all fun c => !(97 ≤ c.toNat && c.toNat ≤ 122)

theorem jsToUpper_noLower (s : String) : noLowerStr (jsToUpper s) = true := by
  show (s.data.map upChar).all (fun c => !(97 ≤ c.toNat && c.toNat ≤ 122)) = true
  rw [List.all_eq_true]
  intro c hc
  rcases List.mem_map.mp hc with ⟨d, -, rfl⟩
  have h := upChar_not_lower d
  simp only [Bool.not_eq_true', Bool.and_eq_false_iff, decide_eq_false_iff_not]
  omega

theorem impactNormalize_cases (s : String) :
    impactNormalize s = "LOW" ∨ impactNormalize s = "MEDIUM" ∨
      impactNormalize s = "HIGH" ∨ impactNormalize s = "UNKNOWN" := by
  simp only [impactNormalize]
  split_ifs <;> simp

theorem parse12_lt (s : String) (t : Nat) (h : parse12 s = some t) : t < 1440 := by
  unfold parse12 at h
  repeat' split at h
  all_goals try exact Option.noConfusion h
  all_goals injection h with h
  all_goals omega

theorem parse24_lt (s : String) (t : Nat) (h : parse24 s = some t) : t < 1440 := by
  unfold parse24 at h
  repeat' split at h
  all_goals try exact Option.noConfusion h
  all_goals injection h with h
  all_goals omega

theorem resolveStart_minute_lt (off : Int) (d : Date) (m : Nat) (tok : String)
    (w : Wall) (h : resolveStart off d m tok = some w) : w.minute < 1440 := by
  unfold resolveStart at h
  split at h
  · injection h with h
    rw [← h]
    simp
  · split at h
    case h_1 t heq =>
      injection h with h
      rw [← h]
      exact parse12_lt tok t heq
    case h_2 =>
      split at h
      case h_1 t heq =>
        injection h with h
        rw [← h]
        exact parse24_lt tok t heq
      case h_2 => cases h

theorem resolveStart_date_eq (off : Int) (d : Date) (m : Nat) (tok : String)
    (w : Wall) (h : resolveStart off d m tok = some w) :
    w.date = (setZoneFromUTC off d m).date := by
  unfold resolveStart at h
  split at h
  · injection h with h
    rw [← h]
  · split at h
    case h_1 t heq =>
      injection h with h
      rw [← h]
    case h_2 =>
      split at h
      case h_1 t heq =>
        injection h with h
        rw [← h]
      case h_2 => cases h

/-- The date-field bounds preserved by the one-day zone adjustment. -/
def dateBounded (d : Date) : Prop := d.year < 9998 ∧ d.month < 99 ∧ d.day < 99

theorem daysInMonth_le (y m : Nat) : daysInMonth y m ≤ 31 := by
  unfold daysInMonth
  split_ifs <;> omega

theorem nextDay_bounds (d : Date) (h : dateBounded d) :
    (nextDay d).year < 10000 ∧ (nextDay d).month < 100 ∧ (nextDay d).day < 100 := by
  obtain ⟨h1, h2, h3⟩ := h
  have hdm := daysInMonth_le d.year d.month
  unfold nextDay
  split_ifs with hd hm <;> refine ⟨?_, ?_, ?_⟩ <;> simp <;> omega

theorem prevDay_bounds (d : Date) (h : dateBounded d) :
    (prevDay d).year < 10000 ∧ (prevDay d).month < 100 ∧ (prevDay d).day < 100 := by
  obtain ⟨h1, h2, h3⟩ := h
  have hdm := daysInMonth_le d.year (d.month - 1)
  unfold prevDay
  split_ifs with hd hm <;> refine ⟨?_, ?_, ?_⟩ <;> simp <;> omega

theorem setZoneFromUTC_bounds (off : Int) (d : Date) (m : Nat) (hd : dateBounded d) :
    (setZoneFromUTC off d m).date.year < 10000 ∧
      (setZoneFromUTC off d m).date.month < 100 ∧
      (setZoneFromUTC off d m).date.day < 100 := by
  simp only [setZoneFromUTC]
  split_ifs with h1 h2
  · simpa using prevDay_bounds d hd
  · simpa using nextDay_bounds d hd
  · obtain ⟨b1, b2, b3⟩ := hd
    refine ⟨?_, ?_, ?_⟩ <;> simp <;> omega

/-! ### Concrete fixtures for witnesses and counterexamples -/

/-- The default configuration: `TZ=Asia/Bangkok` (+07:00),
`FF_CURRENCIES=USD`, `FF_IMPACTS=LOW,MEDIUM,HIGH`. -/
def cfgEx : Config :=
  ⟨420, "Asia/Bangkok", parseAllowList "USD", parseAllowList "LOW,MEDIUM,HIGH"⟩

/-- A 100-character title stem. -/
def longA : String := String.mk (List.replicate 100 'a')

/-- Raw rows whose titles differ only after the 100th character. -/
def rowLongB : RawRow := ⟨"USD", longA ++ "b", "", "8:30am", ⟨2025, 8, 18⟩, 0⟩

def rowLongC : RawRow := ⟨"USD", longA ++ "c", "", "8:30am", ⟨2025, 8, 18⟩, 0⟩

/-- The reduced output of a run over the two long-titled rows. -/
def outLong : List Ev :=
  finalizeScrape ([rowLongB, rowLongC].filterMap (normalizeRow cfgEx 2025 "08"))

/-! ### Claim theorems -/

/-- C6: `dedupeByKey` collapses all elements sharing a key: the key list of
the result has no duplicates, the result is an order-preserving sublist of
the input, every input key is represented, and an element preceded by no
element of equal key (the first occurrence) is kept.  Later duplicates are
therefore dropped, whichever extraction strategy produced them. -/
theorem dedupe_first_occurrence {α : Type} (key : α → String) (l : List α) :
    ((dedupeByKey key l).map key).Nodup ∧
    (dedupeByKey key l).Sublist l ∧
    (∀ x ∈ l, key x ∈ (dedupeByKey key l).map key) ∧
    (∀ l₁ x l₂, l = l₁ ++ x :: l₂ → (∀ z ∈ l₁, key z ≠ key x) →
      x ∈ dedupeByKey key l) := by
  rw [dedupeByKey_eq_keep]
  refine ⟨keep_key_nodup key l, keep_sublist key l, mem_keep_keys key l, ?_⟩
  intro l₁ x l₂ he hne
  rw [he]
  exact keep_first key l₁ x l₂ hne

theorem dedupe_first_occurrence_witness :
    "a" ∈ dedupeByKey (fun s => s) ["a", "b", "a"] ∧
      ((dedupeByKey (fun s => s) ["a", "b", "a"]).map (fun s => s)).Nodup ∧
      dedupeByKey (fun s => s) ["a", "b", "a"] = ["a", "b"] := by
  have h := dedupe_first_occurrence (fun s : String => s) ["a", "b", "a"]
  exact ⟨h.2.2.2 [] "a" ["b", "a"] rfl (by simp), h.1, by decide⟩

/-- C5 (amended): within one run the dedupe key
`startISO + "__" + currency + "__" + title` uniquely determines a record
of the final reduced output; the `id` field does not, because it slugs
the title truncated to 100 characters while the dedupe key uses the full
title. -/
theorem identifier_uniqueness (l : List Ev) :
    ((finalizeScrape l).map dedupeKeyOf).Nodup := by
  unfold finalizeScrape
  rw [dedupeByKey_eq_keep]
  exact ((isortS_perm evLe (keep dedupeKeyOf l)).map dedupeKeyOf).nodup_iff.mpr
    (keep_key_nodup dedupeKeyOf l)

/-- C5 counterexample: two rows whose titles agree on the first 100
characters produce two distinct records in the final output that carry
the same `id`, refuting that no two distinct records share an id. -/
theorem identifier_uniqueness_counterexample :
    outLong.map Ev.title = [longA ++ "b", longA ++ "c"] ∧
      outLong.map Ev.id =
        ["2025-08-18T08:30:00.000+07:00__USD__" ++ longA,
          "2025-08-18T08:30:00.000+07:00__USD__" ++ longA] ∧
      ¬(outLong.map Ev.id).Nodup := by
  refine ⟨by decide, by decide, by decide⟩

/-- C8: impact classification is a case-insensitive substring match with
priority high, medium/med, low, otherwise UNKNOWN; the impact filter
never rejects UNKNOWN and rejects a classified value exactly when it is
absent from the configured impact allow-list. -/
theorem impact_classification_filtering (s env : String) :
    (jsIncludes (jsToLower s) "high" = true → impactNormalize s = "HIGH") ∧
    (jsIncludes (jsToLower s) "high" = false →
      (jsIncludes (jsToLower s) "medium" || jsIncludes (jsToLower s) "med") = true →
      impactNormalize s = "MEDIUM") ∧
    (jsIncludes (jsToLower s) "high" = false →
      (jsIncludes (jsToLower s) "medium" || jsIncludes (jsToLower s) "med") = false →
      jsIncludes (jsToLower s) "low" = true → impactNormalize s = "LOW") ∧
    (jsIncludes (jsToLower s) "high" = false →
      (jsIncludes (jsToLower s) "medium" || jsIncludes (jsToLower s) "med") = false →
      jsIncludes (jsToLower s) "low" = false → impactNormalize s = "UNKNOWN") ∧
    impactRejected (parseAllowList env) "UNKNOWN" = false ∧
    (∀ v, v = "LOW" ∨ v = "MEDIUM" ∨ v = "HIGH" →
      (impactRejected (parseAllowList env) v = true ↔ v ∉ parseAllowList env)) := by
  refine ⟨?_, ?_, ?_, ?_, ?_, ?_⟩
  · intro h
    simp [impactNormalize, h]
  · intro h1 h2
    simp [impactNormalize, h1, h2]
  · intro h1 h2 h3
    simp [impactNormalize, h1, h2, h3]
  · intro h1 h2 h3
    simp [impactNormalize, h1, h2, h3]
  · simp [impactRejected]
  · intro v hv
    have hvne : v ≠ "UNKNOWN" := by
      rcases hv with rfl | rfl | rfl <;> decide
    unfold impactRejected
    rw [decide_eq_true hvne, Bool.true_and, Bool.not_eq_true']
    constructor
    · intro hc hmem
      have ht : (parseAllowList env).contains v = true := List.elem_eq_true_of_mem hmem
      rw [ht] at hc
      cases hc
    · intro hmem
      cases hc : (parseAllowList env).contains v
      · rfl
      · exact absurd (List.mem_of_elem_eq_true hc) hmem

theorem impact_classification_filtering_witness :
    impactNormalize "High Impact Expected" = "HIGH" ∧
      impactRejected (parseAllowList "LOW,MEDIUM") "HIGH" = true ∧
      impactRejected (parseAllowList "LOW,MEDIUM") "UNKNOWN" = false := by
  have h := impact_classification_filtering "High Impact Expected" "LOW,MEDIUM"
  refine ⟨h.1 (by decide), ?_, h.2.2.2.2.1⟩
  exact (h.2.2.2.2.2 "HIGH" (Or.inr (Or.inr rfl))).mpr (by decide)

/-- C10: the keyword checks of `impactNormalize` are applied in the fixed
priority high, then medium, then low: any text containing "high" yields
HIGH regardless of other keywords, and any text without "high" whose
lowercase form contains "med" anywhere — even inside an unrelated word —
yields MEDIUM. -/
theorem impact_keyword_precedence (s : String) :
    (jsIncludes (jsToLower s) "high" = true → impactNormalize s = "HIGH") ∧
    (jsIncludes (jsToLower s) "high" = false → jsIncludes (jsToLower s) "med" = true →
      impactNormalize s = "MEDIUM") := by
  constructor
  · intro h
    simp [impactNormalize, h]
  · intro h1 h2
    simp [impactNormalize, h1, h2]

theorem impact_keyword_precedence_witness :
    impactNormalize "High Medium Low" = "HIGH" ∧ impactNormalize "Comedy" = "MEDIUM" := by
  have h1 := impact_keyword_precedence "High Medium Low"
  have h2 := impact_keyword_precedence "Comedy"
  exact ⟨h1.1 (by decide), h2.2 (by decide) (by decide)⟩

theorem evLe_total (a b : Ev) (h : evLe a b = false) : evLe b a = true :=
  lexLe_total _ _ h

theorem evLe_trans (a b c : Ev) (h1 : evLe a b = true) (h2 : evLe b c = true) :
    evLe a c = true :=
  lexLe_trans _ _ _ h1 h2

/-- C2 (amended): in the second revision of the scrape pipeline, a run
whose driver completes exits with the distinct non-zero status 2 exactly
when the reduced dataset is empty, and with status 0 otherwise.  (The
first revision always exits 0, even on an empty dataset — see the
counterexample.) -/
theorem empty_result_exit_code (cfg : Config) (ws : List Window)
    (uniq : List Ev) (code : Nat) (h : mainV2 cfg ws = .ok (uniq, code)) :
    (uniq = [] → code = 2 ∧ code ≠ 0) ∧ (uniq ≠ [] → code = 0) := by
  unfold mainV2 at h
  cases hd : driveV2 cfg ws with
  | error e =>
    rw [hd] at h
    cases h
  | ok all =>
    rw [hd] at h
    simp only [Except.map] at h
    injection h with h
    have h1 : finalizeScrape all = uniq := congrArg Prod.fst h
    have h2 : (if (finalizeScrape all).length == 0 then 2 else 0) = code :=
      congrArg Prod.snd h
    constructor
    · intro hempty
      rw [h1, hempty] at h2
      simp at h2
      omega
    · intro hne
      rw [h1] at h2
      rw [if_neg (by simpa using fun hl => hne (List.length_eq_zero.mp hl))] at h2
      omega

theorem empty_result_exit_code_witness :
    mainV2 cfgEx [] = .ok ([], 2) ∧ (2 : Nat) ≠ 0 := by
  have h := empty_result_exit_code cfgEx [] [] 2 rfl
  exact ⟨rfl, (h.1 rfl).2⟩

/-- C2 counterexample: the first-revision main exits 0 unconditionally
(scrape.js line 168): a run over one successfully fetched but empty
window writes the empty dataset and still exits 0, refuting the claimed
distinct non-zero status on an empty reduced dataset. -/
theorem empty_result_exit_code_counterexample :
    mainV1 [([true], ([] : List Ev))] = ([], 0) := by
  rfl

/-- C3 (amended): in the first revision a window whose three attempts all
fail contributes zero records and the driver continues with the remaining
windows; in the second revision, exhausting the three `gotoSafe` attempts
rethrows the error and the whole run aborts. -/
theorem window_failure_isolation :
    (∀ (pre post : List (List Bool × List Ev)) (part : List Ev),
      driveV1 (pre ++ ([false, false, false], part) :: post) = driveV1 (pre ++ post)) ∧
    (∀ (cfg : Config) (pre post : List Window) (y : Nat) (mo : String)
      (rows : List RawRow),
      driveV2 cfg (pre ++ (⟨y, mo, [false, false, false], rows⟩ : Window) :: post) =
        .error ()) := by
  constructor
  · intro pre post part
    induction pre with
    | nil => rfl
    | cons w ws ih =>
      cases w with
      | mk att p =>
        simp only [List.cons_append, driveV1, List.append_eq, ih]
  · intro cfg pre post y mo rows
    induction pre with
    | nil => rfl
    | cons w ws ih =>
      simp only [List.cons_append, driveV2]
      cases hg : gotoOk w.attempts
      · simp
      · simp only [if_true, List.append_eq, ih]
        rfl

/-- C3 counterexample: in the second revision, a window failing all three
fetch attempts aborts the entire run — the subsequent window, which alone
would contribute a record, is never processed.  This refutes the claim
that a window-level fetch failure is never fatal. -/
theorem window_failure_isolation_counterexample :
    driveV2 cfgEx
        [⟨2025, "08", [false, false, false], []⟩,
          ⟨2025, "09", [true],
            [⟨"USD", "Core Retail Sales m/m", "", "8:30am", ⟨2025, 8, 18⟩, 0⟩]⟩] =
      .error () ∧
    driveV2 cfgEx
        [⟨2025, "09", [true],
          [⟨"USD", "Core Retail Sales m/m", "", "8:30am", ⟨2025, 8, 18⟩, 0⟩]⟩] =
      .ok
        [⟨"2025-08-18T08:30:00.000+07:00__USD__core-retail-sales-mm",
          "Core Retail Sales m/m", "USD", "UNKNOWN",
          "2025-08-18T08:30:00.000+07:00", "Asia/Bangkok", 2025, "09"⟩] := by
  exact ⟨rfl, rfl⟩

/-- C1 (amended): the normalizer resolves the time token as specified —
for a row whose date was set by a day header (so its `dateISO` is the
midnight-UTC instant of that date), an "All Day"/"-"/empty token yields
that calendar date at 00:00 in the configured zone provided the zone's
UTC offset is non-negative (for zones west of UTC the date shifts back
one day, see the counterexample); any other token is parsed first as a
12-hour clock with am/pm suffix, then as 24-hour HH:MM, and the row is
discarded when neither parse succeeds — never guessed. -/
theorem normalizer_time_resolution (off : Int) (hdr : Date) (m : Nat) (tok : String) :
    (isAllDayToken tok = true → 0 ≤ off → off < 1440 →
      resolveStart off hdr 0 tok = some ⟨hdr, 0⟩) ∧
    (∀ t, isAllDayToken tok = false → parse12 tok = some t →
      resolveStart off hdr m tok = some ⟨(setZoneFromUTC off hdr m).date, t⟩) ∧
    (∀ t, isAllDayToken tok = false → parse12 tok = none → parse24 tok = some t →
      resolveStart off hdr m tok = some ⟨(setZoneFromUTC off hdr m).date, t⟩) ∧
    (isAllDayToken tok = false → parse12 tok = none → parse24 tok = none →
      resolveStart off hdr m tok = none) := by
  refine ⟨?_, ?_, ?_, ?_⟩
  · intro ha h0 h1
    have hbase : setZoneFromUTC off hdr 0 = ⟨hdr, off.toNat⟩ := by
      unfold setZoneFromUTC
      rw [if_neg (by omega), if_neg (by omega)]
      simp
    unfold resolveStart
    rw [ha, if_pos rfl, hbase]
  · intro t hfalse hp
    unfold resolveStart
    rw [hfalse]
    simp only [Bool.false_eq_true, if_false, hp]
  · intro t hfalse hp12 hp24
    unfold resolveStart
    rw [hfalse]
    simp only [Bool.false_eq_true, if_false, hp12, hp24]
  · intro hfalse hp12 hp24
    unfold resolveStart
    rw [hfalse]
    simp only [Bool.false_eq_true, if_false, hp12, hp24]

theorem normalizer_time_resolution_witness :
    resolveStart 420 ⟨2025, 8, 18⟩ 0 "All Day" = some ⟨⟨2025, 8, 18⟩, 0⟩ ∧
    resolveStart 420 ⟨2025, 8, 18⟩ 1230 "8:30pm" = some ⟨⟨2025, 8, 19⟩, 1230⟩ ∧
    resolveStart 420 ⟨2025, 8, 18⟩ 0 "14:00" = some ⟨⟨2025, 8, 18⟩, 840⟩ ∧
    resolveStart 420 ⟨2025, 8, 18⟩ 0 "Tentative" = none := by
  have h := normalizer_time_resolution 420 ⟨2025, 8, 18⟩ 0 "All Day"
  have h2 := normalizer_time_resolution 420 ⟨2025, 8, 18⟩ 1230 "8:30pm"
  have h3 := normalizer_time_resolution 420 ⟨2025, 8, 18⟩ 0 "14:00"
  have h4 := normalizer_time_resolution 420 ⟨2025, 8, 18⟩ 0 "Tentative"
  refine ⟨h.1 (by decide) (by decide) (by decide), ?_, ?_,
    h4.2.2.2 (by decide) (by decide) (by decide)⟩
  · rw [h2.2.1 1230 (by decide) (by decide)]
    decide
  · rw [h3.2.2.1 840 (by decide) (by decide) (by decide)]
    decide

/-- C1 counterexample: with a configured zone west of UTC (offset -300
minutes, e.g. Eastern daylight-saving time's standard neighbour), an
all-day row dated August 18 by its day header resolves to August 17 at
00:00 in the configured zone: the UTC-midnight `dateISO` moves back a day
when re-expressed in the zone, refuting "that calendar date at 00:00:00
in the configured zone" as stated for every configured zone. -/
theorem normalizer_time_resolution_counterexample :
    resolveStart (-300) ⟨2025, 8, 18⟩ 0 "All Day" = some ⟨⟨2025, 8, 17⟩, 0⟩ ∧
      (⟨2025, 8, 17⟩ : Date) ≠ ⟨2025, 8, 18⟩ := by
  exact ⟨by decide, by decide⟩

/-- C9 (amended): dedupe-then-stable-sort (scrape pipeline) and
stable-sort-then-first-occurrence-dedupe (XML-feed pipeline) produce the
same output sequence for every record list in which equality of the
concatenated dedupe key implies equality of `startISO` — as holds for
every record the pipelines build, whose `startISO` contains no
underscore.  Without that proviso the claim fails, because the string
key `startISO + "__" + currency + "__" + title` does not always begin
with a well-defined `startISO` field (see the counterexample). -/
theorem reduce_order_equivalence (l : List Ev)
    (h : ∀ x ∈ l, ∀ y ∈ l, dedupeKeyOf x = dedupeKeyOf y → x.startISO = y.startISO) :
    finalizeScrape l = finalizeXml l := by
  unfold finalizeScrape finalizeXml
  rw [dedupeByKey_eq_keep, xmlDedupe_eq_keep]
  refine isortS_keep_comm dedupeKeyOf evLe evLe_total evLe_trans l ?_
  intro a ha b hb hab
  unfold evLe
  rw [h a ha b hb hab]
  exact lexLe_refl _

theorem reduce_order_equivalence_witness :
    finalizeScrape
        [⟨"i1", "T", "USD", "HIGH", "2025-08-18T08:30:00.000+07:00", "Asia/Bangkok",
          2025, "08"⟩,
        ⟨"i2", "U", "USD", "LOW", "2025-08-17T08:30:00.000+07:00", "Asia/Bangkok",
          2025, "08"⟩,
        ⟨"i3", "T", "USD", "HIGH", "2025-08-18T08:30:00.000+07:00", "Asia/Bangkok",
          2025, "08"⟩] =
      finalizeXml
        [⟨"i1", "T", "USD", "HIGH", "2025-08-18T08:30:00.000+07:00", "Asia/Bangkok",
          2025, "08"⟩,
        ⟨"i2", "U", "USD", "LOW", "2025-08-17T08:30:00.000+07:00", "Asia/Bangkok",
          2025, "08"⟩,
        ⟨"i3", "T", "USD", "HIGH", "2025-08-18T08:30:00.000+07:00", "Asia/Bangkok",
          2025, "08"⟩] :=
  reduce_order_equivalence _ (by decide)

/-- C9 counterexample: with adversarial field values the concatenated
keys coincide while the `startISO` fields differ, and the two reduction
orders keep different representatives — dedupe-then-sort keeps the first
record, sort-then-dedupe the chronologically smaller one. -/
theorem reduce_order_equivalence_counterexample :
    finalizeScrape
        [⟨"", "", "c", "", "a__b", "", 0, ""⟩, ⟨"", "c__", "b", "", "a", "", 0, ""⟩] ≠
      finalizeXml
        [⟨"", "", "c", "", "a__b", "", 0, ""⟩, ⟨"", "c__", "b", "", "a", "", 0, ""⟩] := by
  decide

theorem impactRejected_false (il : List String) (v : String)
    (h : impactRejected il v = false) : v = "UNKNOWN" ∨ v ∈ il := by
  by_cases hu : v = "UNKNOWN"
  · exact Or.inl hu
  · refine Or.inr ?_
    unfold impactRejected at h
    rw [decide_eq_true hu, Bool.true_and] at h
    cases hc : il.contains v
    · rw [hc] at h
      simp at h
    · exact List.mem_of_elem_eq_true hc

/-- C4 (amended): every record emitted by the normalization loop has a
currency from the configured allow-list with no lowercase letter, a valid
impact enum value that moreover passes the impact allow-list unless it is
UNKNOWN, and a `startISO` that is the canonical fixed-width rendering of
the resolved instant carrying the explicit zone-offset suffix.  The
claimed non-empty-title guarantee is not part of the contract: the code
has no title length check, and the loose extractor can emit an empty
title (see the counterexample). -/
theorem output_record_contract (off : Int) (tzName curEnv impEnv : String)
    (wy : Nat) (wm : String) (r : RawRow) (ev : Ev)
    (h : normalizeRow ⟨off, tzName, parseAllowList curEnv, parseAllowList impEnv⟩
        wy wm r = some ev) :
    ev.currency ∈ parseAllowList curEnv ∧
    noLowerStr ev.currency = true ∧
    (ev.impact = "LOW" ∨ ev.impact = "MEDIUM" ∨ ev.impact = "HIGH" ∨
      ev.impact = "UNKNOWN") ∧
    (ev.impact = "UNKNOWN" ∨ ev.impact ∈ parseAllowList impEnv) ∧
    ∃ w : Wall,
      resolveStart off r.hdrDate r.extMin r.timeStr = some w ∧
      ev.startISO = isoRender w off ∧
      w.minute < 1440 ∧
      (∃ pre : List Char, ev.startISO.data = pre ++ offsetChars off) ∧
      (dateBounded r.hdrDate →
        w.date.year < 10000 ∧ w.date.month < 100 ∧ w.date.day < 100) := by
  simp only [normalizeRow] at h
  split at h
  · exact Option.noConfusion h
  · next hcur =>
    split at h
    · exact Option.noConfusion h
    · next himp =>
      split at h
      case h_1 => exact Option.noConfusion h
      case h_2 w heq =>
        injection h with h
        have hc2 : (parseAllowList curEnv).contains (jsToUpper r.currency) = true := by
          revert hcur
          cases (parseAllowList curEnv).contains (jsToUpper r.currency) <;> simp
        have himp2 :
            impactRejected (parseAllowList impEnv) (impactNormalize r.impactRaw) =
              false := by
          revert himp
          cases impactRejected (parseAllowList impEnv) (impactNormalize r.impactRaw) <;>
            simp
        refine ⟨?_, ?_, ?_, ?_, w, heq, ?_, ?_, ?_, ?_⟩
        · rw [← h]
          exact List.mem_of_elem_eq_true hc2
        · rw [← h]
          exact jsToUpper_noLower _
        · rw [← h]
          exact impactNormalize_cases r.impactRaw
        · rw [← h]
          exact impactRejected_false _ _ himp2
        · rw [← h]
        · exact resolveStart_minute_lt off r.hdrDate r.extMin r.timeStr w heq
        · refine ⟨pad4 w.date.year ++ '-' :: pad2 w.date.month ++ '-' ::
            pad2 w.date.day ++ 'T' :: pad2 (w.minute / 60) ++ ':' ::
            pad2 (w.minute % 60) ++ [':', '0', '0', '.', '0', '0', '0'], ?_⟩
          rw [← h]
          show (isoRender w off).data = _
          simp [isoRender, isoChars, List.append_assoc]
        · intro hb
          rw [resolveStart_date_eq off r.hdrDate r.extMin r.timeStr w heq]
          exact setZoneFromUTC_bounds off r.hdrDate r.extMin hb

theorem output_record_contract_witness :
    "USD" ∈ parseAllowList "USD" ∧ noLowerStr "USD" = true ∧
      ("UNKNOWN" = "LOW" ∨ "UNKNOWN" = "MEDIUM" ∨ "UNKNOWN" = "HIGH" ∨
        "UNKNOWN" = "UNKNOWN") := by
  have h := output_record_contract 420 "Asia/Bangkok" "USD" "LOW,MEDIUM,HIGH" 2025 "08"
    ⟨"USD", "Core Retail Sales m/m", "", "8:30am", ⟨2025, 8, 18⟩, 0⟩
    ⟨"2025-08-18T08:30:00.000+07:00__USD__core-retail-sales-mm",
      "Core Retail Sales m/m", "USD", "UNKNOWN", "2025-08-18T08:30:00.000+07:00",
      "Asia/Bangkok", 2025, "08"⟩ rfl
  exact ⟨h.1, h.2.1, h.2.2.1⟩

/-- C4 counterexample: the document blocks "Monday August 18" and
"USD 8:30am" pass the loose extractor with an empty derived title (the
currency and time tokens are removed and nothing remains), and the
record survives the whole pipeline: the emitted artifact contains a
record whose title is empty — in particular shorter than 3 characters —
refuting the non-empty-title guarantee and the claimed discard of short
titles. -/
theorem output_record_contract_counterexample :
    (finalizeScrape
        ((looseExtract 2025 ["Monday August 18", "USD 8:30am"]).filterMap
          (normalizeRow cfgEx 2025 "08"))).map Ev.title = [""] := by
  rfl

/-- C7: the final output of the scrape reduce step is sorted ascending by
lexicographic comparison on `startISO`, and for records whose `startISO`
is the fixed-width rendering of valid wall-clock instants in the same
configured zone offset, this order coincides with chronological order:
`startInstant[i] <= startInstant[i+1]` for all pairs, adjacent ones in
particular. -/
theorem output_ordering (off : Int) (l : List Ev) :
    (finalizeScrape l).Pairwise (fun a b =>
      evLe a b = true ∧
      ∀ w₁ w₂ : Wall, validWall w₁ → validWall w₂ →
        a.startISO = isoRender w₁ off → b.startISO = isoRender w₂ off →
        wallNum w₁ ≤ wallNum w₂) := by
  have hp : (finalizeScrape l).Pairwise (fun a b => evLe a b = true) :=
    isortS_pairwise evLe evLe_total evLe_trans _
  refine hp.imp ?_
  intro a b hab
  refine ⟨hab, ?_⟩
  intro w₁ w₂ hv₁ hv₂ he₁ he₂
  have hlex : lexLe (isoChars w₁ off) (isoChars w₂ off) = true := by
    have h2 := hab
    unfold evLe at h2
    rw [he₁, he₂] at h2
    exact h2
  exact (isoChars_le_iff w₁ w₂ off hv₁ hv₂).mp hlex

theorem output_ordering_witness :
    wallNum ⟨⟨2025, 8, 18⟩, 510⟩ ≤ wallNum ⟨⟨2025, 8, 18⟩, 840⟩ := by
  have h := output_ordering 420
    [⟨"q", "Q", "USD", "UNKNOWN", isoRender ⟨⟨2025, 8, 18⟩, 840⟩ 420, "Asia/Bangkok",
      2025, "08"⟩,
    ⟨"p", "P", "USD", "UNKNOWN", isoRender ⟨⟨2025, 8, 18⟩, 510⟩ 420, "Asia/Bangkok",
      2025, "08"⟩]
  rw [show finalizeScrape
      [⟨"q", "Q", "USD", "UNKNOWN", isoRender ⟨⟨2025, 8, 18⟩, 840⟩ 420, "Asia/Bangkok",
        2025, "08"⟩,
      ⟨"p", "P", "USD", "UNKNOWN", isoRender ⟨⟨2025, 8, 18⟩, 510⟩ 420, "Asia/Bangkok",
        2025, "08"⟩] =
      [⟨"p", "P", "USD", "UNKNOWN", isoRender ⟨⟨2025, 8, 18⟩, 510⟩ 420, "Asia/Bangkok",
        2025, "08"⟩,
      ⟨"q", "Q", "USD", "UNKNOWN", isoRender ⟨⟨2025, 8, 18⟩, 840⟩ 420, "Asia/Bangkok",
        2025, "08"⟩] from by decide] at h
  have h1 := (List.pairwise_cons.mp h).1 _ (List.mem_cons_self _ _)
  exact h1.2 ⟨⟨2025, 8, 18⟩, 510⟩ ⟨⟨2025, 8, 18⟩, 840⟩ (by decide) (by decide) rfl rfl

end Ecocal
